import Mathlib

/-!
Verification of the ukge geometry-normalization and reconciliation pipeline
(scripts/fix_data.py and scripts/clip_to_coastline.py), over a shallow
embedding in Lean 4.  Coordinates are modelled as rationals; GeoJSON
geometries as an inductive type; documents as lists of features.
-/

namespace UKGE

/-- A 2D coordinate point `[x, y]` (longitude, latitude). -/
abbrev Point : Type := ℚ × ℚ

/-- A polygon ring: an ordered sequence of points. -/
abbrev Ring : Type := List Point

/-- One summand of the shoelace loop in `ring_signed_area`:
`ring[i][0]*ring[j][1] - ring[j][0]*ring[i][1]`. -/
def crossTerm (p q : Point) : ℚ := p.1 * q.2 - q.1 * p.2

/-- `ring_signed_area` from scripts/fix_data.py: the shoelace sum over
consecutive point pairs with the index wrapping last-to-first
(`j = (i + 1) % n`), divided by 2. -/
def ring_signed_area (ring : List Point) : ℚ :=
  (∑ i in Finset.range ring.length,
      crossTerm (ring.getD i ((0 : ℚ), (0 : ℚ)))
        (ring.getD ((i + 1) % ring.length) ((0 : ℚ), (0 : ℚ)))) / 2

/-- A GeoJSON geometry: `Polygon` (list of rings, ring 0 the outer ring),
`MultiPolygon` (list of polygons, each a list of rings), or any other
geometry type (carrying its `type` string). -/
inductive Geometry where
  | polygon (rings : List Ring)
  | multiPolygon (polys : List (List Ring))
  | other (tag : String)
deriving DecidableEq

/-- A boundary-document feature: `properties.id`, `properties.Name`,
`properties.normalizedName` and the geometry. -/
structure Feature where
  id : String
  Name : String
  normalizedName : String
  geometry : Geometry
deriving DecidableEq

/-- The body of the `enumerate(rings)` loop of `fix_winding_order`:
ring 0 (outer) is reversed when its signed area is `> 0`, every later
ring (hole) is reversed when its signed area is `< 0`. -/
def fixPolygonRings : List Ring → List Ring
  | [] => []
  | outer :: holes =>
      (if ring_signed_area outer > 0 then outer.reverse else outer) ::
        holes.map (fun ring => if ring_signed_area ring < 0 then ring.reverse else ring)

/-- `fix_winding_order`, per feature geometry: applied to top-level
polygons and to every polygon of a multi-polygon; other geometry types
are untouched. -/
def fix_winding_geometry : Geometry → Geometry
  | .polygon rings => .polygon (fixPolygonRings rings)
  | .multiPolygon polys => .multiPolygon (polys.map fixPolygonRings)
  | .other tag => .other tag

/-- `fix_winding_order` over a whole boundary document. -/
def fix_winding_order (doc : List Feature) : List Feature :=
  doc.map (fun f => { f with geometry := fix_winding_geometry f.geometry })

/-- Canonical-orientation check for one polygon's rings: outer signed
area `≤ 0`, every hole signed area `≥ 0`. -/
def ringsOriented : List Ring → Bool
  | [] => true
  | outer :: holes =>
      decide (ring_signed_area outer ≤ 0) &&
        holes.all (fun r => decide (0 ≤ ring_signed_area r))

/-- Canonical-orientation check for a geometry. -/
def geometryOriented : Geometry → Bool
  | .polygon rings => ringsOriented rings
  | .multiPolygon polys => polys.all ringsOriented
  | .other _ => true

/-- Canonical-orientation check for a whole boundary document. -/
def docOriented (doc : List Feature) : Bool :=
  doc.all (fun f => geometryOriented f.geometry)

/-- Checks that `fixed` is `orig` reversed exactly when `orig` violates
the expected sign for its position (`isOuter`), and unchanged otherwise. -/
def ringFixRelated (orig fixed : Ring) (isOuter : Bool) : Bool :=
  if isOuter then
    (if ring_signed_area orig > 0 then decide (fixed = orig.reverse) else decide (fixed = orig))
  else
    (if ring_signed_area orig < 0 then decide (fixed = orig.reverse) else decide (fixed = orig))

/-- Ring-by-ring reversal relation for one polygon's ring list. -/
def ringsFixRelated (orig fixed : List Ring) : Bool :=
  match orig, fixed with
  | [], [] => true
  | o :: os, f :: fs =>
      ringFixRelated o f true && decide (os.length = fs.length) &&
        (os.zip fs).all (fun p => ringFixRelated p.1 p.2 false)
  | _, _ => false

/-- Ring-by-ring reversal relation for a geometry. -/
def geomFixRelated : Geometry → Geometry → Bool
  | .polygon rs, .polygon fs => ringsFixRelated rs fs
  | .multiPolygon ps, .multiPolygon qs =>
      decide (ps.length = qs.length) && (ps.zip qs).all (fun p => ringsFixRelated p.1 p.2)
  | .other t, .other t' => decide (t = t')
  | _, _ => false

/-- Ring-by-ring reversal relation for a document: same features, same
properties, geometries related ring-by-ring. -/
def docFixRelated (orig fixed : List Feature) : Bool :=
  decide (orig.length = fixed.length) &&
    (orig.zip fixed).all (fun p =>
      decide (p.1.id = p.2.id) && decide (p.1.Name = p.2.Name) &&
        decide (p.1.normalizedName = p.2.normalizedName) &&
        geomFixRelated p.1.geometry p.2.geometry)

/-! ### Shoelace reversal: `ring_signed_area ring.reverse = - ring_signed_area ring` -/

lemma crossTerm_antisymm (p q : Point) : crossTerm q p = - crossTerm p q := by
  unfold crossTerm; ring

/-- Sum of cross terms over consecutive (non-wrapping) pairs. -/
def pathSum : List Point → ℚ
  | p :: q :: rest => crossTerm p q + pathSum (q :: rest)
  | _ => 0

lemma sum_range_pred_eq_pathSum :
    ∀ r : List Point,
      (∑ i in Finset.range (r.length - 1),
        crossTerm (r.getD i ((0 : ℚ), (0 : ℚ))) (r.getD (i + 1) ((0 : ℚ), (0 : ℚ)))) = pathSum r
  | [] => by simp [pathSum]
  | [p] => by simp [pathSum]
  | p :: q :: rest => by
      have ih := sum_range_pred_eq_pathSum (q :: rest)
      simp only [List.getD_cons_succ] at ih
      have hlen : (p :: q :: rest).length - 1 = ((q :: rest).length - 1) + 1 := by
        simp
      rw [hlen, Finset.sum_range_succ']
      simp only [List.getD_cons_succ, List.getD_cons_zero]
      rw [ih]
      have hps : pathSum (p :: q :: rest) = crossTerm p q + pathSum (q :: rest) := rfl
      rw [hps]
      ring

lemma getD_length_pred_eq_getLastD :
    ∀ (l : List Point), l ≠ [] → l.getD (l.length - 1) ((0 : ℚ), (0 : ℚ)) = l.getLastD ((0 : ℚ), (0 : ℚ))
  | [], h => absurd rfl h
  | [p], _ => rfl
  | p :: q :: rest, _ => by
      have ih := getD_length_pred_eq_getLastD (q :: rest) (by simp)
      have hlen : (p :: q :: rest).length - 1 = ((q :: rest).length - 1) + 1 := by simp
      rw [hlen, List.getD_cons_succ, ih]
      rfl

lemma two_mul_ring_signed_area (r : List Point) (h : r ≠ []) :
    2 * ring_signed_area r
      = pathSum r + crossTerm (r.getLastD ((0 : ℚ), (0 : ℚ))) (r.headD ((0 : ℚ), (0 : ℚ))) := by
  obtain ⟨p, rest, rfl⟩ := List.exists_cons_of_ne_nil h
  have hlen : (p :: rest).length = rest.length + 1 := by simp
  rw [ring_signed_area]
  rw [mul_div_cancel₀ _ (two_ne_zero)]
  rw [hlen, Finset.sum_range_succ]
  have hmodlast : (rest.length + 1) % (rest.length + 1) = 0 := Nat.mod_self _
  have hsum :
      (∑ i in Finset.range rest.length,
          crossTerm ((p :: rest).getD i ((0 : ℚ), (0 : ℚ)))
            ((p :: rest).getD ((i + 1) % (rest.length + 1)) ((0 : ℚ), (0 : ℚ))))
        = ∑ i in Finset.range rest.length,
          crossTerm ((p :: rest).getD i ((0 : ℚ), (0 : ℚ)))
            ((p :: rest).getD (i + 1) ((0 : ℚ), (0 : ℚ))) := by
    refine Finset.sum_congr rfl (fun i hi => ?_)
    have : i + 1 < rest.length + 1 := by
      have := Finset.mem_range.mp hi
      omega
    rw [Nat.mod_eq_of_lt this]
  rw [hsum, hmodlast]
  have hpred : rest.length = (p :: rest).length - 1 := by simp
  rw [hpred, sum_range_pred_eq_pathSum (p :: rest),
    getD_length_pred_eq_getLastD (p :: rest) (by simp)]
  rfl

lemma pathSum_append_singleton :
    ∀ (l : List Point) (x : Point),
      pathSum (l ++ [x])
        = pathSum l + (match l.getLast? with | none => 0 | some y => crossTerm y x)
  | [], x => by simp [pathSum]
  | [p], x => by simp [pathSum]
  | p :: q :: rest, x => by
      have ih := pathSum_append_singleton (q :: rest) x
      have h1 : (p :: q :: rest) ++ [x] = p :: ((q :: rest) ++ [x]) := by simp
      rw [h1]
      have h2 : pathSum (p :: ((q :: rest) ++ [x])) = crossTerm p q + pathSum ((q :: rest) ++ [x]) := by
        rfl
      rw [h2, ih]
      have h3 : (p :: q :: rest).getLast? = (q :: rest).getLast? := by
        simp [List.getLast?_cons_cons]
      rw [h3]
      have h4 : pathSum (p :: q :: rest) = crossTerm p q + pathSum (q :: rest) := rfl
      rw [h4]
      exact (add_assoc _ _ _).symm

lemma pathSum_reverse : ∀ r : List Point, pathSum r.reverse = - pathSum r
  | [] => by simp [pathSum]
  | p :: rest => by
      have ih := pathSum_reverse rest
      rw [List.reverse_cons, pathSum_append_singleton, ih]
      rw [List.getLast?_reverse]
      cases rest with
      | nil => simp [pathSum]
      | cons q t =>
          have h4 : pathSum (p :: q :: t) = crossTerm p q + pathSum (q :: t) := rfl
          simp only [List.head?_cons, h4]
          rw [crossTerm_antisymm p q]
          ring

lemma ring_signed_area_reverse (r : List Point) :
    ring_signed_area r.reverse = - ring_signed_area r := by
  rcases eq_or_ne r [] with rfl | h
  · simp [ring_signed_area]
  · have h1 := two_mul_ring_signed_area r h
    have h2 := two_mul_ring_signed_area r.reverse (by simpa using h)
    have hl : r.reverse.getLastD ((0 : ℚ), (0 : ℚ)) = r.headD ((0 : ℚ), (0 : ℚ)) := by
      rw [List.getLastD_eq_getLast?, List.getLast?_reverse]
      cases r <;> simp
    have hh : r.reverse.headD ((0 : ℚ), (0 : ℚ)) = r.getLastD ((0 : ℚ), (0 : ℚ)) := by
      rw [List.getLastD_eq_getLast?]
      cases hr : r.reverse with
      | nil => simp at hr; simp [hr]
      | cons a t =>
          have : r.reverse.head? = some a := by rw [hr]; rfl
          rw [List.head?_reverse] at this
          simp [hr, this]
    rw [hl, hh, pathSum_reverse, crossTerm_antisymm] at h2
    have : 2 * ring_signed_area r.reverse = -(2 * ring_signed_area r) := by
      rw [h1, h2]; ring
    linarith

/-! ### C1 / C7: the winding-order pass orients every ring and is idempotent -/

lemma fixOuter_nonpos (r : Ring) :
    ring_signed_area (if ring_signed_area r > 0 then r.reverse else r) ≤ 0 := by
  split_ifs with h
  · rw [ring_signed_area_reverse]; linarith
  · linarith [not_lt.mp h]

lemma fixHole_nonneg (r : Ring) :
    0 ≤ ring_signed_area (if ring_signed_area r < 0 then r.reverse else r) := by
  split_ifs with h
  · rw [ring_signed_area_reverse]; linarith
  · linarith [not_lt.mp h]

lemma ringsOriented_fixPolygonRings (rs : List Ring) :
    ringsOriented (fixPolygonRings rs) = true := by
  cases rs with
  | nil => rfl
  | cons outer holes =>
      simp only [fixPolygonRings, ringsOriented, Bool.and_eq_true, decide_eq_true_eq,
        List.all_eq_true, List.mem_map]
      refine ⟨fixOuter_nonpos outer, ?_⟩
      rintro r ⟨h, _, rfl⟩
      exact fixHole_nonneg h

lemma geometryOriented_fix (g : Geometry) :
    geometryOriented (fix_winding_geometry g) = true := by
  cases g with
  | polygon rings => exact ringsOriented_fixPolygonRings rings
  | multiPolygon polys =>
      simp only [fix_winding_geometry, geometryOriented, List.all_eq_true, List.mem_map]
      rintro b ⟨ps, _, rfl⟩
      exact ringsOriented_fixPolygonRings ps
  | other tag => rfl

lemma docOriented_fix (doc : List Feature) :
    docOriented (fix_winding_order doc) = true := by
  simp only [docOriented, fix_winding_order, List.all_eq_true, List.mem_map]
  rintro f ⟨f0, _, rfl⟩
  exact geometryOriented_fix f0.geometry

lemma ringFixRelated_outer (o : Ring) :
    ringFixRelated o (if ring_signed_area o > 0 then o.reverse else o) true = true := by
  by_cases h : ring_signed_area o > 0 <;> simp [ringFixRelated, h]

lemma ringFixRelated_hole (r : Ring) :
    ringFixRelated r (if ring_signed_area r < 0 then r.reverse else r) false = true := by
  by_cases h : ring_signed_area r < 0 <;> simp [ringFixRelated, h]

lemma ringsFixRelated_fix (rs : List Ring) :
    ringsFixRelated rs (fixPolygonRings rs) = true := by
  cases rs with
  | nil => rfl
  | cons outer holes =>
      simp only [fixPolygonRings, ringsFixRelated, Bool.and_eq_true, decide_eq_true_eq,
        List.length_map, List.all_eq_true]
      refine ⟨⟨ringFixRelated_outer outer, trivial⟩, ?_⟩
      intro p hp
      induction holes with
      | nil => simp at hp
      | cons h t ih =>
          simp only [List.map_cons, List.zip_cons_cons, List.mem_cons] at hp
          rcases hp with rfl | hp
          · exact ringFixRelated_hole h
          · exact ih hp

lemma geomFixRelated_fix (g : Geometry) :
    geomFixRelated g (fix_winding_geometry g) = true := by
  cases g with
  | polygon rings => exact ringsFixRelated_fix rings
  | multiPolygon polys =>
      simp only [fix_winding_geometry, geomFixRelated, Bool.and_eq_true, decide_eq_true_eq,
        List.length_map, List.all_eq_true]
      refine ⟨trivial, ?_⟩
      intro p hp
      induction polys with
      | nil => simp at hp
      | cons h t ih =>
          simp only [List.map_cons, List.zip_cons_cons, List.mem_cons] at hp
          rcases hp with rfl | hp
          · exact ringsFixRelated_fix h
          · exact ih hp
  | other tag => simp [geomFixRelated, fix_winding_geometry]

lemma docFixRelated_fix (doc : List Feature) :
    docFixRelated doc (fix_winding_order doc) = true := by
  simp only [docFixRelated, fix_winding_order, Bool.and_eq_true, decide_eq_true_eq,
    List.length_map, List.all_eq_true]
  refine ⟨trivial, ?_⟩
  intro p hp
  induction doc with
  | nil => simp at hp
  | cons f d ih =>
      simp only [List.map_cons, List.zip_cons_cons, List.mem_cons] at hp
      rcases hp with rfl | hp
      · simp only [Bool.and_eq_true, decide_eq_true_eq]
        exact ⟨⟨⟨by simp, by simp⟩, by simp⟩, geomFixRelated_fix f.geometry⟩
      · exact ih hp

/-- C1: after the winding-order pass on a boundary document, every
polygon (top-level or inside a multi-polygon) has outer-ring shoelace
signed area ≤ 0 and every hole ring has signed area ≥ 0; each ring of
the output is the input ring reversed exactly when it violated its
expected sign and is otherwise unchanged, with all feature properties
untouched. -/
theorem fix_winding_order_normalizes (doc : List Feature) :
    docOriented (fix_winding_order doc) = true ∧
      docFixRelated doc (fix_winding_order doc) = true :=
  ⟨docOriented_fix doc, docFixRelated_fix doc⟩

lemma fixPolygonRings_idem (rs : List Ring) :
    fixPolygonRings (fixPolygonRings rs) = fixPolygonRings rs := by
  cases rs with
  | nil => rfl
  | cons outer holes =>
      simp only [fixPolygonRings, List.map_map, List.cons.injEq]
      refine ⟨?_, ?_⟩
      · rw [if_neg (not_lt.mpr (fixOuter_nonpos outer))]
      · refine List.map_congr_left (fun r _ => ?_)
        simp only [Function.comp_apply]
        rw [if_neg (not_lt.mpr (fixHole_nonneg r))]

lemma fix_winding_geometry_idem (g : Geometry) :
    fix_winding_geometry (fix_winding_geometry g) = fix_winding_geometry g := by
  cases g with
  | polygon rings => simp [fix_winding_geometry, fixPolygonRings_idem]
  | multiPolygon polys =>
      simp only [fix_winding_geometry, List.map_map, Geometry.multiPolygon.injEq]
      exact List.map_congr_left (fun ps _ => fixPolygonRings_idem ps)
  | other tag => rfl

/-- C7: the winding-order pass is idempotent — applying it a second
time to any boundary document already processed by it changes nothing. -/
theorem fix_winding_order_idempotent (doc : List Feature) :
    fix_winding_order (fix_winding_order doc) = fix_winding_order doc := by
  simp only [fix_winding_order, List.map_map]
  refine List.map_congr_left (fun f _ => ?_)
  simp [fix_winding_geometry_idem]

/-! ### The reconciliation engine: count_coords, centroid latitude,
Richmond split, empty-identifier repair, deduplication -/

/-- `count_coords` from scripts/fix_data.py on a geometry: total number
of coordinate points (sum of ring lengths); `0` for other geometry types. -/
def countCoordsGeom : Geometry → ℕ
  | .polygon rings => (rings.map List.length).sum
  | .multiPolygon polys => (polys.map (fun rings => (rings.map List.length).sum)).sum
  | .other _ => 0

/-- `count_coords(feature)` from scripts/fix_data.py. -/
def count_coords (f : Feature) : ℕ := countCoordsGeom f.geometry

/-- The `all_points` list built by `get_centroid_lat`: every point of
every ring; empty for geometry types other than Polygon/MultiPolygon. -/
def allPoints : Geometry → List Point
  | .polygon rings => rings.flatten
  | .multiPolygon polys => (polys.map List.flatten).flatten
  | .other _ => []

/-- `get_centroid_lat` from scripts/fix_data.py: mean of the latitude
(second) coordinates of all points, `0` when there are no points. -/
def get_centroid_lat (f : Feature) : ℚ :=
  let pts := allPoints f.geometry
  if pts = [] then 0 else (pts.map Prod.snd).sum / pts.length

/-- `RICHMOND_SPLIT_VERSIONS` from scripts/fix_data.py. -/
def RICHMOND_SPLIT_VERSIONS : List String := ["1955", "1974"]

/-- `EMPTY_FEATURE_VERSIONS` from scripts/fix_data.py. -/
def EMPTY_FEATURE_VERSIONS : List String := ["1997", "2005"]

/-- `DEDUP_VERSIONS` from scripts/fix_data.py. -/
def DEDUP_VERSIONS : List String := ["2010"]

/-- The Richmond latitude-based split of `fix_boundary_files`
(applied in `RICHMOND_SPLIT_VERSIONS` eras): an `EC_RICHMOND` feature
becomes Yorks. when its centroid latitude is `> 53`, Surrey otherwise.
Note the source assigns `properties['normalizedName'] = new_name`, the
raw display name. -/
def richmondFix (f : Feature) : Feature :=
  if f.id = "EC_RICHMOND" then
    if get_centroid_lat f > 53 then
      { f with id := "EC_RICHMOND__YORKS_", Name := "Richmond (Yorks.)",
               normalizedName := "Richmond (Yorks.)" }
    else
      { f with id := "EC_RICHMOND__SURREY_", Name := "Richmond (Surrey)",
               normalizedName := "Richmond (Surrey)" }
  else f

/-- The empty-identifier repair of `fix_boundary_files` (applied in
`EMPTY_FEATURE_VERSIONS` eras): `EC_` becomes `EC_SOUTHEND_WEST`; as in
the source, `normalizedName` is set to the raw display name. -/
def emptyFeatureFix (f : Feature) : Feature :=
  if f.id = "EC_" then
    { f with id := "EC_SOUTHEND_WEST", Name := "Southend West",
             normalizedName := "Southend West" }
  else f

/-- Python's `max(candidates, key=lambda f: count_coords(f))`: the
accumulator is replaced only on strictly greater key, so the
first-encountered maximum wins. -/
def maxByCoords (best : Feature) : List Feature → Feature
  | [] => best
  | f :: rest => maxByCoords (if count_coords f > count_coords best then f else best) rest

/-- The deduplication loop of `fix_boundary_files` (`DEDUP_VERSIONS`
eras): walk the features in order, skip identifiers already seen, and
for the first occurrence of each identifier keep the group member with
the most coordinate points (`id_features[fid]` preserves encounter
order, so ties go to the first member). -/
def dedupGo (all : List Feature) (seen : List String) : List Feature → List Feature
  | [] => []
  | f :: rest =>
      if f.id ∈ seen then dedupGo all seen rest
      else
        (match all.filter (fun g => g.id = f.id) with
          | [] => f
          | c :: cs => maxByCoords c cs) :: dedupGo all (f.id :: seen) rest

/-- Feature deduplication of `fix_boundary_files`. -/
def dedupFeatures (features : List Feature) : List Feature :=
  dedupGo features [] features

lemma maxByCoords_firstMax :
    ∀ (l : List Feature) (best : Feature),
      (∃ pre post, best :: l = pre ++ maxByCoords best l :: post ∧
          ∀ g ∈ pre, count_coords g < count_coords (maxByCoords best l)) ∧
        ∀ g ∈ best :: l, count_coords g ≤ count_coords (maxByCoords best l)
  | [], best => by
      refine ⟨⟨[], [], by simp [maxByCoords], by simp⟩, ?_⟩
      intro g hg
      simp only [List.mem_singleton] at hg
      subst hg
      simp [maxByCoords]
  | f :: rest, best => by
      by_cases hgt : count_coords f > count_coords best
      · have ih := maxByCoords_firstMax rest f
        have hmax : maxByCoords best (f :: rest) = maxByCoords f rest := by
          simp [maxByCoords, hgt]
        obtain ⟨⟨pre, post, hdec, hpre⟩, hbound⟩ := ih
        rw [hmax]
        refine ⟨⟨best :: pre, post, by simp [hdec], ?_⟩, ?_⟩
        · intro g hg
          rcases List.mem_cons.mp hg with rfl | hg
          · calc count_coords g < count_coords f := hgt
              _ ≤ count_coords (maxByCoords f rest) := hbound f (by simp)
          · exact hpre g hg
        · intro g hg
          rcases List.mem_cons.mp hg with rfl | hg
          · calc count_coords g ≤ count_coords f := le_of_lt hgt
              _ ≤ count_coords (maxByCoords f rest) := hbound f (by simp)
          · exact hbound g hg
      · have ih := maxByCoords_firstMax rest best
        have hmax : maxByCoords best (f :: rest) = maxByCoords best rest := by
          simp [maxByCoords, hgt]
        obtain ⟨⟨pre, post, hdec, hpre⟩, hbound⟩ := ih
        rw [hmax]
        have hfb : count_coords f ≤ count_coords best := le_of_not_lt hgt
        cases pre with
        | nil =>
            simp only [List.nil_append, List.cons.injEq] at hdec
            obtain ⟨hb, hrest⟩ := hdec
            refine ⟨⟨[], f :: rest, ?_, by simp⟩, ?_⟩
            · rw [← hb]
              simp
            · intro g hg
              rcases List.mem_cons.mp hg with hgb | hg2
              · rw [hgb]; exact hbound best (by simp)
              rcases List.mem_cons.mp hg2 with hgf | hg3
              · rw [hgf]; exact le_trans hfb (hbound best (by simp))
              · exact hbound g (by simp [hg3])
        | cons b pre' =>
            simp only [List.cons_append, List.cons.injEq] at hdec
            obtain ⟨hb, hrest⟩ := hdec
            have hbestlt : count_coords best < count_coords (maxByCoords best rest) := by
              have h := hpre b (by simp)
              rwa [← hb] at h
            refine ⟨⟨best :: f :: pre', post, ?_, ?_⟩, ?_⟩
            · show best :: f :: rest = (best :: f :: pre') ++ maxByCoords best rest :: post
              conv_lhs => rw [hrest]
              simp
            · intro g hg
              rcases List.mem_cons.mp hg with hgb | hg2
              · rw [hgb]; exact hbestlt
              rcases List.mem_cons.mp hg2 with hgf | hg3
              · rw [hgf]; exact lt_of_le_of_lt hfb hbestlt
              · exact hpre g (by simp [hg3])
            · intro g hg
              rcases List.mem_cons.mp hg with hgb | hg2
              · rw [hgb]; exact hbound best (by simp)
              rcases List.mem_cons.mp hg2 with hgf | hg3
              · rw [hgf]; exact le_trans hfb (hbound best (by simp))
              · exact hbound g (by simp [hg3])

lemma maxByCoords_mem (l : List Feature) (best : Feature) :
    maxByCoords best l ∈ best :: l := by
  obtain ⟨⟨pre, post, hdec, _⟩, _⟩ := maxByCoords_firstMax l best
  rw [hdec]
  simp

lemma dedupGo_filter (all : List Feature) (fid : String) (c : Feature) (cs : List Feature)
    (hall : all.filter (fun g => g.id = fid) = c :: cs) :
    ∀ (l : List Feature) (seen : List String),
      (dedupGo all seen l).filter (fun f => f.id = fid)
        = if fid ∈ seen ∨ fid ∉ l.map Feature.id then [] else [maxByCoords c cs] := by
  intro l
  induction l with
  | nil => intro seen; simp [dedupGo]
  | cons f rest ih =>
      intro seen
      by_cases hseen : f.id ∈ seen
      · rw [show dedupGo all seen (f :: rest) = dedupGo all seen rest by
          rw [dedupGo]; rw [if_pos hseen]]
        rw [ih seen]
        by_cases h1 : fid ∈ seen
        · simp [h1]
        · have h2 : fid ≠ f.id := fun he => h1 (by rw [he]; exact hseen)
          simp [h1, h2]
      · rw [show dedupGo all seen (f :: rest)
              = (match all.filter (fun g => g.id = f.id) with
                  | [] => f
                  | c' :: cs' => maxByCoords c' cs') :: dedupGo all (f.id :: seen) rest by
            rw [dedupGo]; rw [if_neg hseen]]
        by_cases hfid : f.id = fid
        · have hkept :
              (match all.filter (fun g => g.id = f.id) with
                | [] => f
                | c' :: cs' => maxByCoords c' cs') = maxByCoords c cs := by
            rw [hfid, hall]
          rw [hkept]
          have hkid : (maxByCoords c cs).id = fid := by
            have hmem : maxByCoords c cs ∈ c :: cs := maxByCoords_mem cs c
            rw [← hall] at hmem
            rw [List.mem_filter] at hmem
            exact of_decide_eq_true hmem.2
          rw [List.filter_cons]
          rw [if_pos (by simp [hkid])]
          rw [ih (f.id :: seen)]
          have hin : fid ∈ f.id :: seen := by rw [hfid]; simp
          rw [if_pos (Or.inl hin)]
          have hnotseen : fid ∉ seen := fun hc => hseen (by rw [hfid]; exact hc)
          have hmap : fid ∈ (f :: rest).map Feature.id := by simp [hfid]
          rw [if_neg (fun hor => hor.elim hnotseen (fun hnot => hnot hmap))]
        · have hkid :
              (match all.filter (fun (g : Feature) => g.id = f.id) with
                | [] => f
                | c' :: cs' => maxByCoords c' cs').id = f.id := by
            cases hm : all.filter (fun (g : Feature) => g.id = f.id) with
            | nil => rfl
            | cons c' cs' =>
                have hmem : maxByCoords c' cs' ∈ c' :: cs' := maxByCoords_mem cs' c'
                rw [← hm] at hmem
                rw [List.mem_filter] at hmem
                exact of_decide_eq_true hmem.2
          rw [List.filter_cons]
          rw [if_neg (by rw [hkid]; simp only [decide_eq_true_eq]; exact fun he => hfid he)]
          rw [ih (f.id :: seen)]
          by_cases h1 : fid ∈ seen
          · simp [h1]
          · have h3 : fid ∉ f.id :: seen := by
              simp only [List.mem_cons]
              rintro (he | he)
              · exact hfid he.symm
              · exact h1 he
            have h2 : fid ≠ f.id := fun he => hfid he.symm
            simp [h1, h3, h2]

/-- C2: deduplication retains, for every identifier group, exactly the
first-encountered member of maximal total coordinate-point count, and
discards the rest; singleton groups are kept unchanged. -/
theorem dedupFeatures_group (features : List Feature) (fid : String)
    (c : Feature) (cs : List Feature)
    (h : features.filter (fun f => f.id = fid) = c :: cs) :
    ∃ k pre post,
      (dedupFeatures features).filter (fun f => f.id = fid) = [k] ∧
        c :: cs = pre ++ k :: post ∧
        (∀ g ∈ pre, count_coords g < count_coords k) ∧
        (∀ g ∈ c :: cs, count_coords g ≤ count_coords k) := by
  have hfilter := dedupGo_filter features fid c cs h features []
  have hmem : fid ∈ features.map Feature.id := by
    have hc : c ∈ features.filter (fun f => f.id = fid) := by rw [h]; simp
    rw [List.mem_filter] at hc
    exact List.mem_map.mpr ⟨c, hc.1, of_decide_eq_true hc.2⟩
  rw [if_neg (by simp [hmem])] at hfilter
  obtain ⟨⟨pre, post, hdec, hpre⟩, hbound⟩ := maxByCoords_firstMax cs c
  exact ⟨maxByCoords c cs, pre, post, hfilter, hdec, hpre, hbound⟩

/-- A closed ring used by concrete example features. -/
def exRing : Ring :=
  [((0 : ℚ), (0 : ℚ)), ((1 : ℚ), (0 : ℚ)), ((1 : ℚ), (1 : ℚ)), ((0 : ℚ), (0 : ℚ))]

/-- Example duplicate feature with 4 coordinate points. -/
def exFeatA : Feature := ⟨"EC_DUP", "Dup", "dup", .polygon [exRing]⟩

/-- Example duplicate feature with 8 coordinate points. -/
def exFeatB : Feature := ⟨"EC_DUP", "Dup", "dup", .polygon [exRing, exRing]⟩

theorem dedupFeatures_group_witness :
    ∃ k pre post,
      (dedupFeatures [exFeatA, exFeatB]).filter (fun f => f.id = "EC_DUP") = [k] ∧
        exFeatA :: [exFeatB] = pre ++ k :: post ∧
        (∀ g ∈ pre, count_coords g < count_coords k) ∧
        (∀ g ∈ exFeatA :: [exFeatB], count_coords g ≤ count_coords k) :=
  dedupFeatures_group [exFeatA, exFeatB] "EC_DUP" exFeatA [exFeatB] (by decide)

/-- C9: a feature whose geometry yields no coordinate points (including
any geometry type other than Polygon/MultiPolygon) has mean latitude 0,
so an `EC_RICHMOND` feature with such geometry is assigned
`EC_RICHMOND__SURREY_`; the latitude comparison is strict, so a mean
latitude of exactly 53 also yields Surrey. -/
theorem richmondFix_surrey (f : Feature) (hid : f.id = "EC_RICHMOND")
    (h : allPoints f.geometry = [] ∨ get_centroid_lat f = 53) :
    (allPoints f.geometry = [] → get_centroid_lat f = 0) ∧
      (richmondFix f).id = "EC_RICHMOND__SURREY_" ∧
      (richmondFix f).Name = "Richmond (Surrey)" := by
  have hzero : allPoints f.geometry = [] → get_centroid_lat f = 0 := by
    intro he; simp [get_centroid_lat, he]
  have hnot : ¬ get_centroid_lat f > 53 := by
    rcases h with he | h53
    · rw [hzero he]; norm_num
    · rw [h53]; exact lt_irrefl _
  refine ⟨hzero, ?_, ?_⟩ <;> simp [richmondFix, hid, hnot]

theorem richmondFix_surrey_witness :
    (allPoints (Geometry.other "GeometryCollection") = []
        → get_centroid_lat ⟨"EC_RICHMOND", "Richmond", "Richmond",
            Geometry.other "GeometryCollection"⟩ = 0) ∧
      (richmondFix ⟨"EC_RICHMOND", "Richmond", "Richmond",
          Geometry.other "GeometryCollection"⟩).id = "EC_RICHMOND__SURREY_" ∧
      (richmondFix ⟨"EC_RICHMOND", "Richmond", "Richmond",
          Geometry.other "GeometryCollection"⟩).Name = "Richmond (Surrey)" :=
  richmondFix_surrey
    ⟨"EC_RICHMOND", "Richmond", "Richmond", Geometry.other "GeometryCollection"⟩
    rfl (Or.inl rfl)

/-! ### The cross-dataset validator (`validate` in scripts/fix_data.py) -/

/-- A constituency record of a result document (the fields the
validator uses). -/
structure Constituency where
  constituencyId : String
  constituencyName : String
deriving DecidableEq

/-- `known_exceptions` from `validate`. -/
def known_exceptions : Finset (String × String) :=
  {("1992", "EC_MILTON_KEYNES_NORTH_EAST"), ("1992", "EC_MILTON_KEYNES_SOUTH_WEST")}

/-- `election_ids` of `validate`. -/
def electionIdSet (cs : List Constituency) : Finset String :=
  (cs.map Constituency.constituencyId).toFinset

/-- `boundary_ids` of `validate`: ids of features whose `id` is truthy
(non-empty). -/
def boundaryIdSet (features : List Feature) : Finset String :=
  ((features.filter (fun f => f.id ≠ "")).map Feature.id).toFinset

/-- The per-(result-document, boundary-era) body of `validate`:
`missing_from_boundary = election_ids - boundary_ids` filtered by the
exception allow-list, and `missing_from_election = boundary_ids -
election_ids` (not filtered). -/
def validatePair (year : String) (electionIds boundaryIds : Finset String)
    (exceptions : Finset (String × String)) : Finset String × Finset String :=
  let missing_from_boundary := electionIds \ boundaryIds
  let missing_from_election := boundaryIds \ electionIds
  (missing_from_boundary.filter (fun m => (year, m) ∉ exceptions),
   missing_from_election)

/-- C5 counterexample: the claim says the report is exactly the
symmetric difference minus the allow-list, but an allow-listed
identifier sitting on the boundary-only side is still reported, because
the filter is applied only to the missing-from-boundary direction. -/
theorem validatePair_counterexample :
    ("1992", "EC_MILTON_KEYNES_NORTH_EAST") ∈ known_exceptions ∧
      "EC_MILTON_KEYNES_NORTH_EAST" ∈
        ((validatePair "1992" ∅ {"EC_MILTON_KEYNES_NORTH_EAST"} known_exceptions).1 ∪
          (validatePair "1992" ∅ {"EC_MILTON_KEYNES_NORTH_EAST"} known_exceptions).2) := by
  decide

/-- C5 (amended): the validator reports exactly
`(electionIds \ boundaryIds minus allow-listed) ∪ (boundaryIds \
electionIds)`: the allow-list is applied only to the
missing-from-boundary direction; identifiers present on both sides are
never reported; an identifier in the result set but absent from the
boundary set is reported iff `(era, C)` is not allow-listed. -/
theorem validatePair_reported_iff (year : String) (eids bids : Finset String)
    (exc : Finset (String × String)) (c : String) :
    c ∈ (validatePair year eids bids exc).1 ∪ (validatePair year eids bids exc).2
      ↔ ((c ∈ eids ∧ c ∉ bids ∧ (year, c) ∉ exc) ∨ (c ∈ bids ∧ c ∉ eids)) := by
  simp only [validatePair, Finset.mem_union, Finset.mem_filter, Finset.mem_sdiff]
  tauto

/-! ### `round_coords` from scripts/clip_to_coastline.py (C10) -/

/-- Python's `round(q, 3)`: round to the nearest multiple of
`1/1000`, ties to the even multiple (banker's rounding), here in the
integer scaled form. -/
def roundHalfEven (q : ℚ) : ℤ :=
  let f := ⌊q⌋
  if q - f < 1 / 2 then f
  else if 1 / 2 < q - f then f + 1
  else if f % 2 = 0 then f else f + 1

/-- Round a rational to 3 decimal places (ties to even). -/
def round3 (q : ℚ) : ℚ := (roundHalfEven (q * 1000) : ℚ) / 1000

/-- The nested coordinate arrays that `round_coords` walks: a leaf
list of numbers (a point) or a list of sub-arrays. -/
inductive CoordTree where
  | pt (nums : List ℚ)
  | node (children : List CoordTree)

mutual

/-- `round_coords` from scripts/clip_to_coastline.py: it inspects
`coords[0]` first, so an empty array at any depth raises `IndexError`
(modelled as `none`); a list whose first element is a number is rounded
elementwise; otherwise it recurses into every child, propagating the
first error. -/
def round_coords : CoordTree → Option CoordTree
  | .pt [] => none
  | .pt (x :: xs) => some (.pt ((x :: xs).map round3))
  | .node [] => none
  | .node (c :: cs) => (roundCoordsList (c :: cs)).map CoordTree.node

/-- The list comprehension `[round_coords(c) for c in coords]`. -/
def roundCoordsList : List CoordTree → Option (List CoordTree)
  | [] => some []
  | c :: cs => do
      let c' ← round_coords c
      let cs' ← roundCoordsList cs
      pure (c' :: cs')

end

mutual

/-- Every list in the coordinate tree is non-empty. -/
def allNonEmpty : CoordTree → Bool
  | .pt xs => !xs.isEmpty
  | .node cs => !cs.isEmpty && allNonEmptyList cs

/-- `allNonEmpty` over a list of children. -/
def allNonEmptyList : List CoordTree → Bool
  | [] => true
  | c :: cs => allNonEmpty c && allNonEmptyList cs

end

mutual

/-- Apply a function to every number of a coordinate tree, preserving
the shape exactly. -/
def mapLeaves (g : ℚ → ℚ) : CoordTree → CoordTree
  | .pt xs => .pt (xs.map g)
  | .node cs => .node (mapLeavesList g cs)

/-- `mapLeaves` over a list of children. -/
def mapLeavesList (g : ℚ → ℚ) : List CoordTree → List CoordTree
  | [] => []
  | c :: cs => mapLeaves g c :: mapLeavesList g cs

end

mutual

/-- Specification of `round_coords`, proved mutually with its list
version. -/
theorem round_coords_spec (t : CoordTree) :
    round_coords t
      = if allNonEmpty t = true then some (mapLeaves round3 t) else none := by
  match t with
  | .pt [] => simp [round_coords, allNonEmpty]
  | .pt (x :: xs) => simp [round_coords, allNonEmpty, mapLeaves]
  | .node [] => simp [round_coords, allNonEmpty]
  | .node (c :: cs) =>
      have h := roundCoordsList_spec (c :: cs)
      rw [show round_coords (.node (c :: cs))
            = (roundCoordsList (c :: cs)).map CoordTree.node from rfl]
      rw [h]
      by_cases hne : allNonEmptyList (c :: cs) = true
      · simp [hne, allNonEmpty, mapLeaves]
      · simp [hne, allNonEmpty]

/-- `round_coords_spec` for child lists. -/
theorem roundCoordsList_spec (l : List CoordTree) :
    roundCoordsList l
      = if allNonEmptyList l = true then some (mapLeavesList round3 l) else none := by
  match l with
  | [] => simp [roundCoordsList, allNonEmptyList, mapLeavesList]
  | c :: cs =>
      have h1 := round_coords_spec c
      have h2 := roundCoordsList_spec cs
      rw [show roundCoordsList (c :: cs)
            = (do
                let c' ← round_coords c
                let cs' ← roundCoordsList cs
                pure (c' :: cs')) from rfl]
      rw [h1, h2]
      by_cases hc : allNonEmpty c = true
      · by_cases hcs : allNonEmptyList cs = true
        · simp [hc, hcs, allNonEmptyList, mapLeavesList]
        · simp [hc, hcs, allNonEmptyList]
      · simp [hc, allNonEmptyList]

end

/-- C10: `round_coords` inspects `coords[0]` first, so it succeeds
exactly when every nested list of the coordinate tree is non-empty (an
empty array at any depth raises `IndexError`, modelled as `none`), and
on success it terminates and returns a tree of identical shape with
every number rounded to 3 decimal places. -/
theorem round_coords_eq (t : CoordTree) :
    round_coords t
      = if allNonEmpty t = true then some (mapLeaves round3 t) else none :=
  round_coords_spec t

/-! ### The geometry clipper (`clip_boundary_file` in
scripts/clip_to_coastline.py, C4 and C6)

The shapely collaborator (`shape`, `is_valid`, `make_valid`,
`intersection`, `is_empty`) is modelled as an abstract engine whose
operations are arbitrary functions; `parse` and `intersection` return
`none` where the library raises. -/

/-- The external geometry-engine interface used by `clip_boundary_file`. -/
structure ClipEngine where
  parse : Geometry → Option Geometry
  isValid : Geometry → Bool
  makeValid : Geometry → Geometry
  intersection : Geometry → Geometry → Option Geometry
  isEmpty : Geometry → Bool
  extractPolygons : Geometry → List (List Ring)

/-- The GeoJSON `type` string of a geometry (`result_dict['type']`). -/
def geoType : Geometry → String
  | .polygon _ => "Polygon"
  | .multiPolygon _ => "MultiPolygon"
  | .other tag => tag

/-- Round every coordinate of a ring to 3 decimal places. -/
def roundRing (r : Ring) : Ring := r.map (fun p => (round3 p.1, round3 p.2))

/-- `result_dict['coordinates'] = round_coords(result_dict['coordinates'])`
on a well-formed Polygon/MultiPolygon geometry. -/
def roundGeometry : Geometry → Geometry
  | .polygon rings => .polygon (rings.map roundRing)
  | .multiPolygon polys => .multiPolygon (polys.map (fun rings => rings.map roundRing))
  | .other tag => .other tag

/-- `polygons[0]` when exactly one polygon part remains, otherwise
`MultiPolygon(polygons)`. -/
def composeResult : List (List Ring) → Geometry
  | [p] => .polygon p
  | ps => .multiPolygon ps

/-- The outcome of the per-feature body of `clip_boundary_file`:
the (possibly updated) feature, whether it was counted modified, the
warnings printed, and the clipped-and-rounded candidate geometry when
one was computed. -/
structure ClipOutcome where
  feature : Feature
  modified : Bool
  warnings : List String
  result : Option Geometry

/-- The per-feature body of the loop in `clip_boundary_file`: parse
(silent skip on failure — the `except` branch has no print), repair if
invalid, intersect with the land mask (warn and skip on exception or
empty result), extract polygon parts (warn and skip if none), compose,
round, and replace the stored geometry only when the result differs in
`type` or total point count. -/
def clipFeature (E : ClipEngine) (mask : Geometry) (f : Feature) : ClipOutcome :=
  match E.parse f.geometry with
  | none => ⟨f, false, [], none⟩
  | some g0 =>
      let g := if E.isValid g0 then g0 else E.makeValid g0
      match E.intersection g mask with
      | none => ⟨f, false, ["WARNING: intersection failed"], none⟩
      | some clipped =>
          if E.isEmpty clipped then ⟨f, false, ["WARNING: empty intersection"], none⟩
          else
            match E.extractPolygons clipped with
            | [] => ⟨f, false, ["WARNING: no polygon parts after clipping"], none⟩
            | p :: ps =>
                let result := roundGeometry (composeResult (p :: ps))
                if geoType result ≠ geoType f.geometry
                    ∨ countCoordsGeom result ≠ countCoordsGeom f.geometry then
                  ⟨{ f with geometry := result }, true, [], some result⟩
                else ⟨f, false, [], some result⟩

/-- `clip_boundary_file` over the whole document: every feature is
processed independently, so a skipped feature never stops the rest. -/
def clip_boundary_file (E : ClipEngine) (mask : Geometry) (features : List Feature) :
    List Feature :=
  features.map (fun f => (clipFeature E mask f).feature)

/-- A concrete engine for evaluation: parse fails exactly on a
Polygon/MultiPolygon containing a ring with fewer than 4 points (the
degenerate rings the source comment names), every geometry is its own
intersection, and polygon parts are extracted structurally. -/
def refEngine : ClipEngine where
  parse g :=
    match g with
    | .polygon rings =>
        if rings.all (fun r => 4 ≤ r.length) then some (.polygon rings) else none
    | .multiPolygon polys =>
        if polys.all (fun rings => rings.all (fun r => 4 ≤ r.length)) then
          some (.multiPolygon polys)
        else none
    | .other t => some (.other t)
  isValid _ := true
  makeValid g := g
  intersection g _ := some g
  isEmpty _ := false
  extractPolygons g :=
    match g with
    | .polygon rings => [rings]
    | .multiPolygon polys => polys
    | .other _ => []

/-- A feature whose polygon has a degenerate 3-point ring, so parsing
fails. -/
def badFeature : Feature :=
  ⟨"EC_BAD", "Bad", "bad",
    .polygon [[((0 : ℚ), (0 : ℚ)), ((1 : ℚ), (0 : ℚ)), ((0 : ℚ), (0 : ℚ))]]⟩

/-- C4 counterexample: on a parse failure the clipper leaves the
feature unchanged and continues — but it records no warning (the
`except` branch is silent), contradicting the claim that a warning is
recorded. -/
theorem clip_parse_failure_counterexample :
    refEngine.parse badFeature.geometry = none ∧
      (clipFeature refEngine (Geometry.other "mask") badFeature).feature = badFeature ∧
      (clipFeature refEngine (Geometry.other "mask") badFeature).warnings = [] := by
  decide

/-- C4 (amended): for every engine behaviour, mask and feature, a parse
failure makes the clipper leave the feature's geometry unchanged, emit
no warning, mark nothing modified, and move on (a recoverable, but
silent, skip). -/
theorem clipFeature_parse_failure (E : ClipEngine) (mask : Geometry) (f : Feature)
    (h : E.parse f.geometry = none) :
    clipFeature E mask f = ⟨f, false, [], none⟩ := by
  unfold clipFeature
  rw [h]

theorem clipFeature_parse_failure_witness :
    clipFeature refEngine (Geometry.other "mask") badFeature
      = ⟨badFeature, false, [], none⟩ :=
  clipFeature_parse_failure refEngine (Geometry.other "mask") badFeature (by decide)

/-- C6: whenever the clipper computes a clipped-and-rounded result, it
replaces the stored geometry and marks the feature modified exactly
when the result differs from the input geometry in `type` or in total
coordinate-point count; otherwise the feature is kept unchanged. -/
theorem clipFeature_modified_iff (E : ClipEngine) (mask : Geometry) (f : Feature)
    (r : Geometry) (h : (clipFeature E mask f).result = some r) :
    ((clipFeature E mask f).modified = true
        ↔ (geoType r ≠ geoType f.geometry
            ∨ countCoordsGeom r ≠ countCoordsGeom f.geometry)) ∧
      (clipFeature E mask f).feature
        = (if geoType r ≠ geoType f.geometry
              ∨ countCoordsGeom r ≠ countCoordsGeom f.geometry
            then { f with geometry := r } else f) := by
  unfold clipFeature at h ⊢
  cases hp : E.parse f.geometry with
  | none => rw [hp] at h; simp at h
  | some g0 =>
      rw [hp] at h
      dsimp only at h ⊢
      cases hi : E.intersection (if E.isValid g0 then g0 else E.makeValid g0) mask with
      | none => rw [hi] at h; simp at h
      | some clipped =>
          rw [hi] at h
          dsimp only at h ⊢
          by_cases he : E.isEmpty clipped = true
          · rw [if_pos he] at h; simp at h
          · rw [if_neg he] at h ⊢
            cases hx : E.extractPolygons clipped with
            | nil => rw [hx] at h; simp at h
            | cons p ps =>
                rw [hx] at h
                dsimp only at h ⊢
                by_cases hc : geoType (roundGeometry (composeResult (p :: ps)))
                      ≠ geoType f.geometry
                    ∨ countCoordsGeom (roundGeometry (composeResult (p :: ps)))
                      ≠ countCoordsGeom f.geometry
                · rw [if_pos hc] at h ⊢
                  simp only [Option.some.injEq] at h
                  subst h
                  simp [hc]
                · rw [if_neg hc] at h ⊢
                  simp only [Option.some.injEq] at h
                  subst h
                  simp [hc]

/-- A well-formed feature on which the reference engine's clip pipeline
reaches the result stage. -/
def goodFeature : Feature := ⟨"EC_GOOD", "Good", "good", .polygon [exRing]⟩

theorem clipFeature_modified_iff_witness :
    (((clipFeature refEngine (Geometry.other "mask") goodFeature).modified = true
        ↔ (geoType (roundGeometry (composeResult [[exRing]])) ≠ geoType goodFeature.geometry
            ∨ countCoordsGeom (roundGeometry (composeResult [[exRing]]))
              ≠ countCoordsGeom goodFeature.geometry)) ∧
      (clipFeature refEngine (Geometry.other "mask") goodFeature).feature
        = (if geoType (roundGeometry (composeResult [[exRing]])) ≠ geoType goodFeature.geometry
              ∨ countCoordsGeom (roundGeometry (composeResult [[exRing]]))
                ≠ countCoordsGeom goodFeature.geometry
            then { goodFeature with geometry := roundGeometry (composeResult [[exRing]]) }
            else goodFeature)) :=
  clipFeature_modified_iff refEngine (Geometry.other "mask") goodFeature
    (roundGeometry (composeResult [[exRing]])) rfl

/-! ### `normalize_constituency_name` (scripts/fix_data.py, C8 and C3)

The regex pipeline is modelled character-by-character over `List Char`.
Python's `\s` and `\w` are modelled on their ASCII fragment (codes:
space 32, tab 9, newline 10, carriage return 13, vertical tab 11, form
feed 12; word characters are ASCII letters, digits and underscore). -/

/-- Python's regex `\s` (ASCII fragment). -/
def isSpaceChar (c : Char) : Bool :=
  decide (c.toNat = 32) || decide (c.toNat = 9) || decide (c.toNat = 10)
    || decide (c.toNat = 13) || decide (c.toNat = 11) || decide (c.toNat = 12)

/-- Python's regex `\w` (ASCII fragment). -/
def isWordChar (c : Char) : Bool :=
  decide (97 ≤ c.toNat ∧ c.toNat ≤ 122) || decide (65 ≤ c.toNat ∧ c.toNat ≤ 90)
    || decide (48 ≤ c.toNat ∧ c.toNat ≤ 57) || decide (c.toNat = 95)

/-- `re.sub(r'\s*&\s*', ' and ', n)`: each ampersand, together with the
maximal whitespace runs immediately before and after it, is replaced by
`" and "`; the leftmost-match scan continues after the match. -/
def subAmp : List Char → List Char
  | [] => []
  | c :: cs =>
      if h : ((c :: cs).dropWhile isSpaceChar).head? = some '&' then
        ' ' :: 'a' :: 'n' :: 'd' :: ' '
          :: subAmp (((c :: cs).dropWhile isSpaceChar).tail.dropWhile isSpaceChar)
      else
        c :: subAmp cs
termination_by l => l.length
decreasing_by
  · have h1 : ((c :: cs).dropWhile isSpaceChar) ≠ [] := by
      intro he; rw [he] at h; simp at h
    have h2 : (((c :: cs).dropWhile isSpaceChar).tail.dropWhile isSpaceChar).length
        ≤ ((c :: cs).dropWhile isSpaceChar).tail.length :=
      (List.dropWhile_suffix isSpaceChar).sublist.length_le
    have h3 : ((c :: cs).dropWhile isSpaceChar).length ≤ (c :: cs).length :=
      (List.dropWhile_suffix isSpaceChar).sublist.length_le
    have h4 : ((c :: cs).dropWhile isSpaceChar).tail.length
        = ((c :: cs).dropWhile isSpaceChar).length - 1 := List.length_tail _
    have h5 : 0 < ((c :: cs).dropWhile isSpaceChar).length := List.length_pos.mpr h1
    simp only [List.length_cons] at h3 ⊢
    omega
  · simp

/-- `n.replace('-', ' ')`. -/
def subHyphen (l : List Char) : List Char := l.map (fun c => if c = '-' then ' ' else c)

/-- `re.sub(r'\bAB\b', rep, n)` for a two-letter token: scan with a
flag recording whether the previous character was a word character;
replace where the token is enclosed in word boundaries.  The
replacement text is not rescanned. -/
def subPair (a b : Char) (rep : List Char) : Bool → List Char → List Char
  | _, [] => []
  | _, [c] => [c]
  | prevWord, c :: d :: rest =>
      if !prevWord && c == a && d == b && !(rest.head?.any isWordChar) then
        rep ++ subPair a b rep (isWordChar b) rest
      else
        c :: subPair a b rep (isWordChar c) (d :: rest)

/-- `re.sub(r'\bA\b(?=\s|$)', rep, n)` for a single letter: replace at
a word boundary when followed by whitespace or the end of the string
(the lookahead consumes nothing). -/
def subSingle (a : Char) (rep : List Char) : Bool → List Char → List Char
  | _, [] => []
  | prevWord, c :: cs =>
      if !prevWord && c == a && (cs.head?.elim true isSpaceChar) then
        rep ++ subSingle a rep (isWordChar c) cs
      else
        c :: subSingle a rep (isWordChar c) cs

/-- `re.sub(r'\s+', ' ', n)`: every maximal whitespace run becomes one
space. -/
def collapseSpaces : List Char → List Char
  | [] => []
  | [c] => [if isSpaceChar c then ' ' else c]
  | c :: d :: rest =>
      if isSpaceChar c && isSpaceChar d then collapseSpaces (d :: rest)
      else (if isSpaceChar c then ' ' else c) :: collapseSpaces (d :: rest)

/-- Python `str.strip()`: drop leading and trailing whitespace. -/
def stripChars (l : List Char) : List Char :=
  ((l.dropWhile isSpaceChar).reverse.dropWhile isSpaceChar).reverse

/-- The eight directional-abbreviation substitutions, in source order:
`NE`, `NW`, `SE`, `SW`, then `N`, `S`, `E`, `W`. -/
def subDirectionals (l : List Char) : List Char :=
  subSingle 'W' "West".toList false
    (subSingle 'E' "East".toList false
      (subSingle 'S' "South".toList false
        (subSingle 'N' "North".toList false
          (subPair 'S' 'W' "South West".toList false
            (subPair 'S' 'E' "South East".toList false
              (subPair 'N' 'W' "North West".toList false
                (subPair 'N' 'E' "North East".toList false l)))))))

/-- The full substitution pipeline of `normalize_constituency_name` on
a character list, in source order: ampersand, hyphens, the directional
abbreviations, whitespace collapse, strip, lower-case (Python's
`str.lower()`, modelled by `Char.toLower` on its ASCII fragment). -/
def normList (l : List Char) : List Char :=
  (stripChars (collapseSpaces (subDirectionals (subHyphen (subAmp l))))).map Char.toLower

/-- `normalize_constituency_name` from scripts/fix_data.py (`if not
name: return ''` is the empty-string case). -/
def normalize_constituency_name (s : String) : String :=
  if s = "" then "" else String.mk (normList s.toList)

/-! ### Character-level facts used by the idempotence proof -/

lemma toNat_ofNat_valid {n : ℕ} (h : n.isValidChar) : (Char.ofNat n).toNat = n := by
  rw [Char.ofNat, dif_pos h]
  rfl

lemma char_eq_iff_toNat {c d : Char} : c = d ↔ c.toNat = d.toNat := by
  constructor
  · intro h; rw [h]
  · intro h
    have h1 : Char.ofNat c.toNat = Char.ofNat d.toNat := by rw [h]
    rwa [Char.ofNat_toNat, Char.ofNat_toNat] at h1

lemma toLower_toNat (c : Char) :
    (Char.toLower c).toNat
      = if 65 ≤ c.toNat ∧ c.toNat ≤ 90 then c.toNat + 32 else c.toNat := by
  simp only [Char.toLower]
  by_cases h : 65 ≤ c.toNat ∧ c.toNat ≤ 90
  · rw [if_pos (show c.toNat ≥ 65 ∧ c.toNat ≤ 90 from ⟨h.1, h.2⟩), if_pos h]
    exact toNat_ofNat_valid (Or.inl (by omega))
  · rw [if_neg (fun hc => h ⟨hc.1, hc.2⟩), if_neg h]

lemma toLower_eq_self {c : Char} (h : ¬(65 ≤ c.toNat ∧ c.toNat ≤ 90)) :
    Char.toLower c = c := by
  simp only [Char.toLower]
  rw [if_neg (fun hc => h ⟨hc.1, hc.2⟩)]

lemma toLower_not_upper (c : Char) :
    ¬(65 ≤ (Char.toLower c).toNat ∧ (Char.toLower c).toNat ≤ 90) := by
  rw [toLower_toNat]
  by_cases h : 65 ≤ c.toNat ∧ c.toNat ≤ 90
  · rw [if_pos h]; omega
  · rw [if_neg h]; omega

lemma toLower_eq_low {c x : Char} (hx : x.toNat < 65) :
    Char.toLower c = x ↔ c = x := by
  constructor
  · intro h
    by_cases hu : 65 ≤ c.toNat ∧ c.toNat ≤ 90
    · exfalso
      have h1 := toLower_toNat c
      rw [if_pos hu] at h1
      rw [char_eq_iff_toNat] at h
      omega
    · rwa [toLower_eq_self hu] at h
  · intro h
    rw [h]
    exact toLower_eq_self (by omega)

lemma isSpaceChar_toLower (c : Char) :
    isSpaceChar (Char.toLower c) = isSpaceChar c := by
  by_cases hu : 65 ≤ c.toNat ∧ c.toNat ≤ 90
  · have h1 : (Char.toLower c).toNat = c.toNat + 32 := by
      rw [toLower_toNat, if_pos hu]
    have e1 : isSpaceChar (Char.toLower c) = false := by
      simp only [isSpaceChar, Bool.or_eq_false_iff, decide_eq_false_iff_not]
      omega
    have e2 : isSpaceChar c = false := by
      simp only [isSpaceChar, Bool.or_eq_false_iff, decide_eq_false_iff_not]
      omega
    rw [e1, e2]
  · rw [toLower_eq_self hu]

/-- No ASCII uppercase letter occurs in the list. -/
def noUpper (l : List Char) : Prop := ∀ c ∈ l, ¬(65 ≤ c.toNat ∧ c.toNat ≤ 90)

lemma noUpper_map_toLower (l : List Char) : noUpper (l.map Char.toLower) := by
  intro c hc
  obtain ⟨d, _, rfl⟩ := List.mem_map.mp hc
  exact toLower_not_upper d

/-! ### Stage lemmas: each substitution removes or avoids its trigger -/

lemma not_amp_subAmp : ∀ l, '&' ∉ subAmp l := by
  intro l
  induction l using subAmp.induct with
  | case1 => simp [subAmp]
  | case2 c cs h ih =>
      rw [subAmp, dif_pos h]
      intro hmem
      simp only [List.mem_cons] at hmem
      rcases hmem with h1 | h1 | h1 | h1 | h1 | h1 <;>
        first
          | exact absurd h1 (by decide)
          | exact ih h1
  | case3 c cs h ih =>
      rw [subAmp, dif_neg h]
      intro hmem
      rcases List.mem_cons.mp hmem with h1 | h1
      · apply h
        rw [← h1] at *
        rw [List.dropWhile_cons, if_neg (by decide)]
        rfl
      · exact ih h1

lemma subAmp_id : ∀ l, '&' ∉ l → subAmp l = l := by
  intro l
  induction l using subAmp.induct with
  | case1 => intro _; simp [subAmp]
  | case2 c cs h ih =>
      intro hna
      exfalso
      have hmem : '&' ∈ List.dropWhile isSpaceChar (c :: cs) := by
        cases hdw : List.dropWhile isSpaceChar (c :: cs) with
        | nil => rw [hdw] at h; simp at h
        | cons a t =>
            rw [hdw] at h
            simp only [List.head?_cons, Option.some.injEq] at h
            rw [h]
            simp
      exact hna ((List.dropWhile_suffix isSpaceChar).sublist.subset hmem)
  | case3 c cs h ih =>
      intro hna
      rw [subAmp, dif_neg h]
      rw [ih (fun hm => hna (List.mem_cons_of_mem c hm))]

lemma not_hyph_subHyphen (l : List Char) : '-' ∉ subHyphen l := by
  intro hmem
  obtain ⟨c, _, hc⟩ := List.mem_map.mp hmem
  by_cases h : c = '-'
  · rw [if_pos h] at hc; exact absurd hc (by decide)
  · rw [if_neg h] at hc; exact h hc

lemma subHyphen_id (l : List Char) (h : '-' ∉ l) : subHyphen l = l := by
  unfold subHyphen
  rw [List.map_congr_left (fun c hc => if_neg (fun he => h (by rw [← he]; exact hc)))]
  exact List.map_id l

lemma mem_subHyphen {x : Char} {l : List Char} (hx : x ∈ subHyphen l) :
    x = ' ' ∨ x ∈ l := by
  obtain ⟨c, hc, hcx⟩ := List.mem_map.mp hx
  by_cases h : c = '-'
  · rw [if_pos h] at hcx; left; exact hcx.symm
  · rw [if_neg h] at hcx; right; rw [← hcx]; exact hc

lemma mem_subPair (a b : Char) (rep : List Char) :
    ∀ (w : Bool) (l : List Char) (x : Char), x ∈ subPair a b rep w l → x ∈ rep ∨ x ∈ l
  | _, [], x => by simp [subPair]
  | _, [c], x => by
      intro h
      rw [subPair] at h
      exact Or.inr h
  | w, c :: d :: rest, x => by
      intro hx
      rw [subPair] at hx
      by_cases hc : (!w && c == a && d == b && !(rest.head?.any isWordChar)) = true
      · rw [if_pos hc] at hx
        rcases List.mem_append.mp hx with h1 | h1
        · exact Or.inl h1
        · rcases mem_subPair a b rep (isWordChar b) rest x h1 with h2 | h2
          · exact Or.inl h2
          · exact Or.inr (by simp [h2])
      · rw [if_neg hc] at hx
        rcases List.mem_cons.mp hx with h1 | h1
        · exact Or.inr (by simp [h1])
        · rcases mem_subPair a b rep (isWordChar c) (d :: rest) x h1 with h2 | h2
          · exact Or.inl h2
          · exact Or.inr (by simp [List.mem_cons.mp h2])

lemma subPair_id (a b : Char) (rep : List Char) :
    ∀ (w : Bool) (l : List Char), a ∉ l → subPair a b rep w l = l
  | _, [], _ => rfl
  | _, [c], _ => rfl
  | w, c :: d :: rest, ha => by
      have hca : (c == a) = false :=
        beq_eq_false_iff_ne.mpr (fun he => ha (by rw [← he]; simp))
      rw [subPair]
      rw [if_neg (by simp [hca])]
      rw [subPair_id a b rep (isWordChar c) (d :: rest)
        (fun hm => ha (List.mem_cons_of_mem c hm))]

lemma mem_subSingle (a : Char) (rep : List Char) :
    ∀ (w : Bool) (l : List Char) (x : Char), x ∈ subSingle a rep w l → x ∈ rep ∨ x ∈ l
  | _, [], x => by simp [subSingle]
  | w, c :: cs, x => by
      intro hx
      rw [subSingle] at hx
      by_cases hc : (!w && c == a && (cs.head?.elim true isSpaceChar)) = true
      · rw [if_pos hc] at hx
        rcases List.mem_append.mp hx with h1 | h1
        · exact Or.inl h1
        · rcases mem_subSingle a rep (isWordChar c) cs x h1 with h2 | h2
          · exact Or.inl h2
          · exact Or.inr (by simp [h2])
      · rw [if_neg hc] at hx
        rcases List.mem_cons.mp hx with h1 | h1
        · exact Or.inr (by simp [h1])
        · rcases mem_subSingle a rep (isWordChar c) cs x h1 with h2 | h2
          · exact Or.inl h2
          · exact Or.inr (by simp [h2])

lemma subSingle_id (a : Char) (rep : List Char) :
    ∀ (w : Bool) (l : List Char), a ∉ l → subSingle a rep w l = l
  | _, [], _ => rfl
  | w, c :: cs, ha => by
      have hca : (c == a) = false :=
        beq_eq_false_iff_ne.mpr (fun he => ha (by rw [← he]; simp))
      rw [subSingle]
      rw [if_neg (by simp [hca])]
      rw [subSingle_id a rep (isWordChar c) cs
        (fun hm => ha (List.mem_cons_of_mem c hm))]

lemma mem_collapseSpaces : ∀ (l : List Char) (x : Char), x ∈ collapseSpaces l → x = ' ' ∨ x ∈ l
  | [], x => by simp [collapseSpaces]
  | [c], x => by
      intro h
      rw [collapseSpaces] at h
      rcases List.mem_singleton.mp h with h1
      by_cases hc : isSpaceChar c = true
      · rw [if_pos hc] at h1; left; exact h1
      · rw [if_neg hc] at h1; right; simp [h1]
  | c :: d :: rest, x => by
      intro h
      rw [collapseSpaces] at h
      by_cases hc : (isSpaceChar c && isSpaceChar d) = true
      · rw [if_pos hc] at h
        rcases mem_collapseSpaces (d :: rest) x h with h1 | h1
        · left; exact h1
        · right; exact List.mem_cons_of_mem c h1
      · rw [if_neg hc] at h
        rcases List.mem_cons.mp h with h1 | h1
        · by_cases hsc : isSpaceChar c = true
          · rw [if_pos hsc] at h1; left; exact h1
          · rw [if_neg hsc] at h1; right; simp [h1]
        · rcases mem_collapseSpaces (d :: rest) x h1 with h2 | h2
          · left; exact h2
          · right; exact List.mem_cons_of_mem c h2

/-! ### The collapsed/stripped whitespace invariant -/

/-- Every whitespace character is a plain space and no two are
adjacent. -/
def singleSpaced : List Char → Bool
  | [] => true
  | [c] => !isSpaceChar c || c == ' '
  | c :: d :: rest =>
      (!isSpaceChar c || (c == ' ' && !isSpaceChar d)) && singleSpaced (d :: rest)

lemma collapse_head : ∀ (c : Char) (m : List Char),
    (collapseSpaces (c :: m)).head? = some (if isSpaceChar c then ' ' else c)
  | _, [] => rfl
  | c, d :: rest => by
      rw [collapseSpaces]
      by_cases hc : (isSpaceChar c && isSpaceChar d) = true
      · rw [if_pos hc]
        rw [collapse_head d rest]
        have hcd := hc
        rw [Bool.and_eq_true] at hcd
        rw [if_pos hcd.2, if_pos hcd.1]
      · rw [if_neg hc]; rfl

lemma collapse_singleSpaced : ∀ l, singleSpaced (collapseSpaces l) = true
  | [] => rfl
  | [c] => by
      rw [collapseSpaces]
      by_cases hc : isSpaceChar c = true
      · rw [if_pos hc]; decide
      · rw [if_neg hc]; simp [singleSpaced, hc]
  | c :: d :: rest => by
      rw [collapseSpaces]
      by_cases hc : (isSpaceChar c && isSpaceChar d) = true
      · rw [if_pos hc]; exact collapse_singleSpaced (d :: rest)
      · rw [if_neg hc]
        have hh := collapse_head d rest
        have hs := collapse_singleSpaced (d :: rest)
        cases hcol : collapseSpaces (d :: rest) with
        | nil => rw [hcol] at hh; simp at hh
        | cons y ys =>
            rw [hcol] at hh hs
            simp only [List.head?_cons, Option.some.injEq] at hh
            rw [singleSpaced, hs, Bool.and_true]
            by_cases hsc : isSpaceChar c = true
            · have hsd : isSpaceChar d = false := by
                cases hdd : isSpaceChar d
                · rfl
                · exact absurd (by rw [hsc, hdd]; decide) hc
              rw [if_pos hsc, hh, if_neg (by rw [hsd]; exact Bool.false_ne_true), hsd]
              decide
            · have hsc' : isSpaceChar c = false := by
                cases hcc : isSpaceChar c
                · rfl
                · exact absurd hcc hsc
              rw [if_neg hsc, hsc']
              simp

lemma collapseSpaces_id : ∀ l, singleSpaced l = true → collapseSpaces l = l
  | [], _ => rfl
  | [c], h => by
      rw [collapseSpaces]
      by_cases hsc : isSpaceChar c = true
      · rw [if_pos hsc]
        rw [singleSpaced] at h
        simp only [hsc, Bool.not_true, Bool.false_or] at h
        rw [show c = ' ' from by simpa using h]
      · rw [if_neg hsc]
  | c :: d :: rest, h => by
      rw [singleSpaced, Bool.and_eq_true] at h
      obtain ⟨hp, hs⟩ := h
      rw [collapseSpaces]
      have hnot : ¬(isSpaceChar c && isSpaceChar d) = true := by
        intro hcd
        rw [Bool.and_eq_true] at hcd
        simp only [hcd.1, hcd.2, Bool.not_true, Bool.false_or, Bool.and_false] at hp
        exact Bool.false_ne_true hp
      rw [if_neg hnot, collapseSpaces_id (d :: rest) hs]
      by_cases hsc : isSpaceChar c = true
      · simp only [hsc, Bool.not_true, Bool.false_or, Bool.and_eq_true] at hp
        rw [if_pos hsc, show c = ' ' from by simpa using hp.1]
      · rw [if_neg hsc]

lemma singleSpaced_tail : ∀ {c : Char} {l : List Char},
    singleSpaced (c :: l) = true → singleSpaced l = true := by
  intro c l h
  cases l with
  | nil => rfl
  | cons d rest =>
      rw [singleSpaced, Bool.and_eq_true] at h
      exact h.2

lemma singleSpaced_append_right :
    ∀ (t s : List Char), singleSpaced (t ++ s) = true → singleSpaced s = true
  | [], _ => id
  | c :: t', s => fun h => singleSpaced_append_right t' s (singleSpaced_tail h)

lemma singleSpaced_append_left :
    ∀ (s t : List Char), singleSpaced (s ++ t) = true → singleSpaced s = true
  | [], _, _ => rfl
  | [c], t, h => by
      cases t with
      | nil => simpa using h
      | cons d t' =>
          rw [show ([c] ++ (d :: t')) = c :: d :: t' from rfl, singleSpaced,
            Bool.and_eq_true] at h
          have h1 := h.1
          rw [singleSpaced]
          cases hb : (!isSpaceChar c) with
          | true => rw [Bool.true_or]
          | false =>
              rw [hb, Bool.false_or, Bool.and_eq_true] at h1
              rw [Bool.false_or]
              exact h1.1
  | c :: d :: s', t, h => by
      rw [show ((c :: d :: s') ++ t) = c :: d :: (s' ++ t) from rfl, singleSpaced,
        Bool.and_eq_true] at h
      rw [singleSpaced, Bool.and_eq_true]
      exact ⟨h.1, singleSpaced_append_left (d :: s') t h.2⟩

/-! ### Strip lemmas -/

lemma head_any_dropWhile (p : Char → Bool) (l : List Char) :
    ((l.dropWhile p).head?.any p) = false := by
  have h := List.head?_dropWhile_not p l
  cases hh : (l.dropWhile p).head? with
  | none => rfl
  | some x =>
      rw [hh] at h
      simp only [Option.any]
      exact h

lemma dropWhile_eq_self_of_head (p : Char → Bool) (l : List Char)
    (h : (l.head?.any p) = false) : l.dropWhile p = l := by
  cases l with
  | nil => rfl
  | cons c cs =>
      simp only [List.head?_cons, Option.any] at h
      rw [List.dropWhile_cons, if_neg (by rw [h]; exact Bool.false_ne_true)]

lemma stripChars_sublist (l : List Char) : (stripChars l).Sublist l := by
  unfold stripChars
  have h1 : (l.dropWhile isSpaceChar).Sublist l := (List.dropWhile_suffix _).sublist
  have h2 : ((l.dropWhile isSpaceChar).reverse.dropWhile isSpaceChar)
      <:+ (l.dropWhile isSpaceChar).reverse := List.dropWhile_suffix _
  have h3 : ((l.dropWhile isSpaceChar).reverse.dropWhile isSpaceChar).reverse
      <+: (l.dropWhile isSpaceChar) := by
    apply List.reverse_suffix.mp
    rw [List.reverse_reverse]
    exact h2
  exact h3.sublist.trans h1

lemma strip_head_any (l : List Char) :
    ((stripChars l).head?.any isSpaceChar) = false := by
  unfold stripChars
  cases hu : l.dropWhile isSpaceChar with
  | nil => rfl
  | cons c rest =>
      have hpc : isSpaceChar c = false := by
        have h := head_any_dropWhile isSpaceChar l
        rw [hu] at h
        simpa [Option.any] using h
      rw [show (c :: rest).reverse = rest.reverse ++ [c] from by simp]
      rw [List.dropWhile_append]
      by_cases he : (rest.reverse.dropWhile isSpaceChar).isEmpty = true
      · rw [if_pos he]
        have hone : List.dropWhile isSpaceChar [c] = [c] := by
          rw [List.dropWhile_cons, if_neg (by rw [hpc]; exact Bool.false_ne_true)]
        rw [hone]
        simp [Option.any, hpc]
      · rw [if_neg he]
        rw [List.reverse_append]
        simp [Option.any, hpc]

lemma strip_getLast_any (l : List Char) :
    ((stripChars l).getLast?.any isSpaceChar) = false := by
  unfold stripChars
  rw [List.getLast?_reverse]
  exact head_any_dropWhile isSpaceChar _

lemma stripChars_id (l : List Char) (hh : (l.head?.any isSpaceChar) = false)
    (hl : (l.getLast?.any isSpaceChar) = false) : stripChars l = l := by
  unfold stripChars
  rw [dropWhile_eq_self_of_head _ _ hh]
  rw [dropWhile_eq_self_of_head _ _ (by rw [List.head?_reverse]; exact hl)]
  exact List.reverse_reverse l

lemma singleSpaced_stripChars (l : List Char) (h : singleSpaced l = true) :
    singleSpaced (stripChars l) = true := by
  unfold stripChars
  obtain ⟨t, ht⟩ := List.dropWhile_suffix (l := l) isSpaceChar
  have hu : singleSpaced (l.dropWhile isSpaceChar) = true :=
    singleSpaced_append_right t _ (by rw [ht]; exact h)
  have h2 : ((l.dropWhile isSpaceChar).reverse.dropWhile isSpaceChar).reverse
      <+: (l.dropWhile isSpaceChar) := by
    apply List.reverse_suffix.mp
    rw [List.reverse_reverse]
    exact List.dropWhile_suffix _
  obtain ⟨t2, ht2⟩ := h2
  exact singleSpaced_append_left _ t2 (by rw [ht2]; exact hu)

/-! ### Lower-casing lemmas -/

lemma map_toLower_id (l : List Char) (h : noUpper l) : l.map Char.toLower = l := by
  rw [List.map_congr_left (fun c hc => toLower_eq_self (h c hc))]
  exact List.map_id l

lemma beq_space_toLower (c : Char) : (Char.toLower c == ' ') = (c == ' ') := by
  by_cases h : c = ' '
  · rw [h]; decide
  · have h2 : Char.toLower c ≠ ' ' := fun he => h ((toLower_eq_low (by decide)).mp he)
    rw [beq_eq_false_iff_ne.mpr h2, beq_eq_false_iff_ne.mpr h]

lemma singleSpaced_map_toLower :
    ∀ l, singleSpaced l = true → singleSpaced (l.map Char.toLower) = true
  | [], _ => rfl
  | [c], h => by
      simp only [List.map_cons, List.map_nil]
      rw [singleSpaced] at h ⊢
      rw [isSpaceChar_toLower, beq_space_toLower]
      exact h
  | c :: d :: rest, h => by
      rw [singleSpaced, Bool.and_eq_true] at h
      have ih := singleSpaced_map_toLower (d :: rest) h.2
      simp only [List.map_cons] at ih ⊢
      rw [singleSpaced, Bool.and_eq_true]
      refine ⟨?_, ih⟩
      rw [isSpaceChar_toLower, beq_space_toLower, isSpaceChar_toLower]
      exact h.1

lemma head_any_map_toLower (l : List Char) (h : (l.head?.any isSpaceChar) = false) :
    ((l.map Char.toLower).head?.any isSpaceChar) = false := by
  rw [List.head?_map]
  cases hh : l.head? with
  | none => rfl
  | some c =>
      rw [hh] at h
      simp only [Option.any] at h
      simp only [Option.map_some', Option.any, isSpaceChar_toLower]
      exact h

lemma getLast_any_map_toLower (l : List Char) (h : (l.getLast?.any isSpaceChar) = false) :
    ((l.map Char.toLower).getLast?.any isSpaceChar) = false := by
  rw [List.getLast?_map]
  cases hh : l.getLast? with
  | none => rfl
  | some c =>
      rw [hh] at h
      simp only [Option.any] at h
      simp only [Option.map_some', Option.any, isSpaceChar_toLower]
      exact h

/-! ### Assembly: the normalization pipeline is idempotent -/

lemma mem_subDirectionals {x : Char} {l : List Char} (hx : x ∈ subDirectionals l) :
    x ∈ "NorthEastSouthWest ".toList ∨ x ∈ l := by
  unfold subDirectionals at hx
  have hW : ∀ y ∈ "West".toList, y ∈ "NorthEastSouthWest ".toList := by decide
  have hE : ∀ y ∈ "East".toList, y ∈ "NorthEastSouthWest ".toList := by decide
  have hS : ∀ y ∈ "South".toList, y ∈ "NorthEastSouthWest ".toList := by decide
  have hN : ∀ y ∈ "North".toList, y ∈ "NorthEastSouthWest ".toList := by decide
  have hSW : ∀ y ∈ "South West".toList, y ∈ "NorthEastSouthWest ".toList := by decide
  have hSE : ∀ y ∈ "South East".toList, y ∈ "NorthEastSouthWest ".toList := by decide
  have hNW : ∀ y ∈ "North West".toList, y ∈ "NorthEastSouthWest ".toList := by decide
  have hNE : ∀ y ∈ "North East".toList, y ∈ "NorthEastSouthWest ".toList := by decide
  rcases mem_subSingle _ _ _ _ _ hx with h | hx
  · exact Or.inl (hW x h)
  rcases mem_subSingle _ _ _ _ _ hx with h | hx
  · exact Or.inl (hE x h)
  rcases mem_subSingle _ _ _ _ _ hx with h | hx
  · exact Or.inl (hS x h)
  rcases mem_subSingle _ _ _ _ _ hx with h | hx
  · exact Or.inl (hN x h)
  rcases mem_subPair _ _ _ _ _ _ hx with h | hx
  · exact Or.inl (hSW x h)
  rcases mem_subPair _ _ _ _ _ _ hx with h | hx
  · exact Or.inl (hSE x h)
  rcases mem_subPair _ _ _ _ _ _ hx with h | hx
  · exact Or.inl (hNW x h)
  rcases mem_subPair _ _ _ _ _ _ hx with h | hx
  · exact Or.inl (hNE x h)
  exact Or.inr hx

lemma subDirectionals_id (l : List Char) (h : noUpper l) : subDirectionals l = l := by
  have hN : 'N' ∉ l := fun hm => h 'N' hm (by decide)
  have hS : 'S' ∉ l := fun hm => h 'S' hm (by decide)
  have hE : 'E' ∉ l := fun hm => h 'E' hm (by decide)
  have hW : 'W' ∉ l := fun hm => h 'W' hm (by decide)
  unfold subDirectionals
  rw [subPair_id 'N' 'E' _ _ _ hN, subPair_id 'N' 'W' _ _ _ hN,
    subPair_id 'S' 'E' _ _ _ hS, subPair_id 'S' 'W' _ _ _ hS,
    subSingle_id 'N' _ _ _ hN, subSingle_id 'S' _ _ _ hS,
    subSingle_id 'E' _ _ _ hE, subSingle_id 'W' _ _ _ hW]

lemma no_amp_normList (l : List Char) : '&' ∉ normList l := by
  intro hmem
  unfold normList at hmem
  obtain ⟨d, hd, hdl⟩ := List.mem_map.mp hmem
  have hdamp : d = '&' := (toLower_eq_low (by decide)).mp hdl
  subst hdamp
  have h1 : '&' ∈ collapseSpaces (subDirectionals (subHyphen (subAmp l))) :=
    (stripChars_sublist _).subset hd
  rcases mem_collapseSpaces _ _ h1 with h2 | h2
  · exact absurd h2 (by decide)
  rcases mem_subDirectionals h2 with h3 | h3
  · exact absurd h3 (by decide)
  rcases mem_subHyphen h3 with h4 | h4
  · exact absurd h4 (by decide)
  · exact not_amp_subAmp l h4

lemma no_hyph_normList (l : List Char) : '-' ∉ normList l := by
  intro hmem
  unfold normList at hmem
  obtain ⟨d, hd, hdl⟩ := List.mem_map.mp hmem
  have hdh : d = '-' := (toLower_eq_low (by decide)).mp hdl
  subst hdh
  have h1 : '-' ∈ collapseSpaces (subDirectionals (subHyphen (subAmp l))) :=
    (stripChars_sublist _).subset hd
  rcases mem_collapseSpaces _ _ h1 with h2 | h2
  · exact absurd h2 (by decide)
  rcases mem_subDirectionals h2 with h3 | h3
  · exact absurd h3 (by decide)
  · exact not_hyph_subHyphen _ h3

lemma normList_fixpoint (l : List Char) : normList (normList l) = normList l := by
  have hU : noUpper (normList l) := by
    unfold normList
    exact noUpper_map_toLower _
  have hamp := no_amp_normList l
  have hhyph := no_hyph_normList l
  have hss : singleSpaced (normList l) = true := by
    unfold normList
    exact singleSpaced_map_toLower _ (singleSpaced_stripChars _ (collapse_singleSpaced _))
  have hhead : ((normList l).head?.any isSpaceChar) = false := by
    unfold normList
    exact head_any_map_toLower _ (strip_head_any _)
  have hlast : ((normList l).getLast?.any isSpaceChar) = false := by
    unfold normList
    exact getLast_any_map_toLower _ (strip_getLast_any _)
  conv_lhs => rw [normList]
  rw [subAmp_id _ hamp, subHyphen_id _ hhyph, subDirectionals_id _ hU,
    collapseSpaces_id _ hss, stripChars_id _ hhead hlast, map_toLower_id _ hU]

/-- C8: the canonical name normalization is idempotent —
`normalize(normalize(x)) = normalize(x)` for every input string — and
`"Ayr & Carrick"` normalizes to the same string as
`"ayr and carrick"`. -/
theorem normalize_constituency_name_idempotent :
    (∀ s : String,
        normalize_constituency_name (normalize_constituency_name s)
          = normalize_constituency_name s) ∧
      normalize_constituency_name "Ayr & Carrick"
        = normalize_constituency_name "ayr and carrick" := by
  constructor
  · intro s
    by_cases hs : s = ""
    · rw [hs]
      simp [normalize_constituency_name]
    · have hinner : normalize_constituency_name s = String.mk (normList s.toList) := by
        rw [normalize_constituency_name, if_neg hs]
      rw [hinner]
      by_cases hm : normList s.toList = []
      · rw [hm]
        decide
      · rw [normalize_constituency_name]
        rw [if_neg (fun he => hm (by
          have h2 := congrArg String.toList he
          simpa using h2))]
        have hlist : (String.mk (normList s.toList)).toList = normList s.toList := rfl
        rw [hlist, normList_fixpoint]
  · have h1 : normalize_constituency_name "Ayr & Carrick" = "ayr and carrick" := by
      rw [normalize_constituency_name, if_neg (by decide), normList]
      rw [show subAmp "Ayr & Carrick".toList = "Ayr and Carrick".toList by
        simp +decide [subAmp, List.dropWhile, isSpaceChar]]
      decide
    have h2 : normalize_constituency_name "ayr and carrick" = "ayr and carrick" := by
      rw [normalize_constituency_name, if_neg (by decide), normList]
      rw [show subAmp "ayr and carrick".toList = "ayr and carrick".toList by
        simp +decide [subAmp, List.dropWhile, isSpaceChar]]
      decide
    rw [h1, h2]

/-! ### The name-sync step (`sync_boundary_names`) and the
`normalizedName` invariant (C3) -/

/-- The per-feature body of `sync_boundary_names`: when the feature id
is in the election-name lookup, set `Name` to the election name and
`normalizedName` to its normalization, unless both already match. -/
def syncFeature (lookup : String → Option String) (f : Feature) : Feature :=
  match lookup f.id with
  | none => f
  | some election_name =>
      if f.Name ≠ election_name
          ∨ f.normalizedName ≠ normalize_constituency_name election_name then
        { f with Name := election_name,
                 normalizedName := normalize_constituency_name election_name }
      else f

/-- C3 counterexample: the ambiguous-split repair stores the raw
display name in `normalizedName` (`feature['properties']
['normalizedName'] = new_name`), so the touched feature violates
`normalizedName = normalize(Name)`. -/
theorem normalizedName_invariant_counterexample :
    (richmondFix ⟨"EC_RICHMOND", "Richmond", "richmond",
          Geometry.other "Point"⟩).normalizedName = "Richmond (Surrey)" ∧
      normalize_constituency_name
          (richmondFix ⟨"EC_RICHMOND", "Richmond", "richmond",
              Geometry.other "Point"⟩).Name = "richmond (surrey)" ∧
      (richmondFix ⟨"EC_RICHMOND", "Richmond", "richmond",
            Geometry.other "Point"⟩).normalizedName
        ≠ normalize_constituency_name
            (richmondFix ⟨"EC_RICHMOND", "Richmond", "richmond",
                Geometry.other "Point"⟩).Name := by
  have hfix : richmondFix ⟨"EC_RICHMOND", "Richmond", "richmond", Geometry.other "Point"⟩
      = ⟨"EC_RICHMOND__SURREY_", "Richmond (Surrey)", "Richmond (Surrey)",
          Geometry.other "Point"⟩ := by decide
  have hn : normalize_constituency_name "Richmond (Surrey)" = "richmond (surrey)" := by
    rw [normalize_constituency_name, if_neg (by decide), normList]
    rw [show subAmp "Richmond (Surrey)".toList = "Richmond (Surrey)".toList by
      simp +decide [subAmp, List.dropWhile, isSpaceChar]]
    decide
  rw [hfix]
  refine ⟨rfl, hn, ?_⟩
  show ("Richmond (Surrey)" : String) ≠ normalize_constituency_name "Richmond (Surrey)"
  rw [hn]
  decide

/-- C3 (amended): the name-sync step establishes
`normalizedName = normalize_constituency_name(Name)` for every feature
it touches (id present in the lookup); the ambiguous-split and
empty-identifier repairs instead set `normalizedName` to the raw
display name. -/
theorem syncFeature_establishes_invariant (lookup : String → Option String)
    (f : Feature) (en : String) (h : lookup f.id = some en) :
    (syncFeature lookup f).Name = en ∧
      (syncFeature lookup f).normalizedName
        = normalize_constituency_name ((syncFeature lookup f).Name) := by
  unfold syncFeature
  rw [h]
  dsimp only
  by_cases hc : f.Name ≠ en ∨ f.normalizedName ≠ normalize_constituency_name en
  · rw [if_pos hc]
    exact ⟨rfl, rfl⟩
  · rw [if_neg hc]
    push_neg at hc
    exact ⟨hc.1, by rw [hc.2, hc.1]⟩

/-- Example lookup table for the witness. -/
def exLookup : String → Option String :=
  fun i => if i = "EC_AYR_AND_CARRICK" then some "Ayr & Carrick" else none

/-- Example feature for the sync witness. -/
def exSyncFeat : Feature := ⟨"EC_AYR_AND_CARRICK", "AYR", "ayr", Geometry.other "Point"⟩

theorem syncFeature_establishes_invariant_witness :
    (syncFeature exLookup exSyncFeat).Name = "Ayr & Carrick" ∧
      (syncFeature exLookup exSyncFeat).normalizedName
        = normalize_constituency_name ((syncFeature exLookup exSyncFeat).Name) :=
  syncFeature_establishes_invariant exLookup exSyncFeat "Ayr & Carrick" (by decide)

end UKGE
